import Mathlib

/-!
Verification of the ApexFlow automated retraining control plane.

This file shallowly embeds the decision-and-coordination layer of the
repository (validation gate, performance comparator, drift listener,
schedule optimizer, resource manager, rollback ledger, orchestrating flow)
as executable Lean definitions, and proves the behavioural properties the
design document states about them.

Conventions used throughout:
* machine floats become `ℚ` (all decisions in the source are order
  comparisons, which `ℚ` models exactly);
* external collaborators (scipy's `ttest_rel`, sklearn metric helpers,
  MLflow model loading, `psutil` probes, wall clocks) become explicit
  parameters of the embedded functions;
* fallible steps become `Option`/explicit outcome values, and a Python
  exception that escapes a function is modelled by a dedicated
  constructor `PyResult.exc`.

The file is organised as: all definitions first, then all theorems.
-/

namespace ApexFlow

/-- Result of calling a Python function: either a normal `return` of a
boolean, or an exception escaping the call. -/
inductive PyResult where
  | ret (b : Bool)
  | exc
deriving DecidableEq, Repr

/-! ### Validation Gate — `src/apex_flow/validation/gate.py`

`ValidationGate.validate` computes the candidate's MAE on the hold-out and
recent slices, loads the production baseline (metrics + stored baseline
predictions), runs a paired t-test per slice and accepts only when the MAE
improves on both slices and both p-values are below the significance
level.  Missing baseline, length-mismatched baseline predictions, or a
failing t-test call all return `False` (fail closed). -/

/-- One slice of `validation/baseline_metrics.json` as consumed by the
gate: `baseline.get("mae", float("inf"))` is modelled by an `Option ℚ`
(`none` plays the role of the `+inf` default), and
`baseline.get("predictions", [])` by a list of rationals. -/
structure BaselineSlice where
  mae : Option ℚ
  predictions : List ℚ

/-- The MAE half of `_compute_metrics`: `mean_absolute_error(y_true, y_pred)`.
(The RMSE half is computed by the gate but never used in its decision.) -/
def computeMae (yTrue yPred : List ℚ) : ℚ :=
  (((List.zip yTrue yPred).map (fun p => |p.1 - p.2|)).sum) / (yTrue.length : ℚ)

/-- Inputs of one `ValidationGate.validate` call.  `holdoutPred`/`recentPred`
are the candidate model's predictions (`model.predict` is external), and
`baseline` is the result of `_load_production_baseline`: `none` models the
`(None, None)` return (file missing or unreadable), `some` carries the two
slice dictionaries. -/
structure GateInput where
  yHoldout : List ℚ
  holdoutPred : List ℚ
  yRecent : List ℚ
  recentPred : List ℚ
  baseline : Option (BaselineSlice × BaselineSlice)

/-- `ValidationGate.validate`.  `sig` is `significance_level`; `ttest`
abstracts `scipy.stats.ttest_rel`, returning `some p` (the p-value) or
`none` when the scipy call raises — the `except` branch of step 3.  The
explicit length check of step 3 (`raise ValueError` caught by the same
`except`) is the `if` below; step 4 is the final conjunction. -/
def validate (sig : ℚ) (ttest : List ℚ → List ℚ → Option ℚ) (inp : GateInput) : Bool :=
  let candHoldoutMae := computeMae inp.yHoldout inp.holdoutPred
  let candRecentMae := computeMae inp.yRecent inp.recentPred
  match inp.baseline with
  | none => false
  | some (bh, br) =>
    if bh.predictions.length ≠ inp.yHoldout.length ∨
       br.predictions.length ≠ inp.yRecent.length then
      false
    else
      match ttest inp.holdoutPred bh.predictions, ttest inp.recentPred br.predictions with
      | some pHoldout, some pRecent =>
        let improvementHoldout :=
          match bh.mae with
          | some m => decide (candHoldoutMae < m)
          | none => true
        let improvementRecent :=
          match br.mae with
          | some m => decide (candRecentMae < m)
          | none => true
        improvementHoldout && improvementRecent &&
          (decide (pHoldout < sig) && decide (pRecent < sig))
      | some _, none => false
      | none, _ => false

/-! ### Performance Comparator — `src/apex_flow/validation/comparator.py`

`PerformanceComparator.compare` loads the production model (fail-closed on
`None`), computes MAE/RMSE for candidate and production on both slices,
forms `delta = candidate - production` and promotes iff
`delta < -improvement_threshold` for both metrics on both slices. -/

/-- MAE/RMSE pair as produced by `_compute_metrics`.  Metric computation
itself (model `predict` plus sklearn) is an external collaborator, so the
comparator is embedded over the metric values it consumes. -/
structure Metrics where
  mae : ℚ
  rmse : ℚ

/-- `PerformanceComparator.compare`.  `prodLoad` is the result of
`_load_production_model` evaluated on both slices: `none` models the
`(None, None)` return (no production model registered, or MLflow raised),
`some (prodHoldout, prodRecent)` the loaded model's metrics.  The final
conjunction mirrors `all(delta_holdout[m] < -thr and delta_recent[m] < -thr
for m in ["mae", "rmse"])`. -/
def compare (thr : ℚ) (prodLoad : Option (Metrics × Metrics))
    (candHoldout candRecent : Metrics) : Bool :=
  match prodLoad with
  | none => false
  | some (prodHoldout, prodRecent) =>
    let deltaHoldoutMae := candHoldout.mae - prodHoldout.mae
    let deltaHoldoutRmse := candHoldout.rmse - prodHoldout.rmse
    let deltaRecentMae := candRecent.mae - prodRecent.mae
    let deltaRecentRmse := candRecent.rmse - prodRecent.rmse
    (decide (deltaHoldoutMae < -thr) && decide (deltaRecentMae < -thr)) &&
      (decide (deltaHoldoutRmse < -thr) && decide (deltaRecentRmse < -thr))

/-! ### Drift Listener — `src/apex_flow/monitoring/drift_listener.py`

`handle_alert(severity, trigger_id)` checks, in order: severity floor,
per-trigger debounce, global cooldown, queue capacity; then persists
`last_{trigger_id}` and `last_job_timestamp` via `_set_meta` *before*
enqueuing.  Two facts about the source matter for the embedding:

* `_set_meta` performs bare SQLite calls with no `try/except` around step 5
  of `handle_alert`, so a failing ledger write raises out of
  `handle_alert`;
* after a successful `put_nowait`, `_ensure_worker_running` reads the
  global name `worker_thread`, which is never defined (the module defines
  `_worker_thread`), so the success path itself ends in a `NameError`
  (only `queue.Full` is caught) — after the metadata writes and the
  enqueue have already happened.

Both are modelled by `PyResult.exc`. -/

/-- Listener configuration (from `config/retraining.yaml`, with the
hard-coded fallbacks 0.7 / 300 / 600 / 5). -/
structure ListenerConfig where
  severityThreshold : ℚ
  debounceSeconds : ℚ
  cooldownSeconds : ℚ
  maxQueueSize : Nat

/-- Listener state: the SQLite `meta` table (`last_{trigger_id}` per
trigger and `last_job_timestamp`, read through `_get_meta` whose default
is `0.0` — folded into total maps defaulting to `0`), and the in-process
job queue. -/
structure ListenerState where
  lastSeen : Nat → ℚ
  lastJob : ℚ
  queue : List (ℚ × Nat)

/-- `handle_alert`.  `ledgerOk` models whether the SQLite ledger accepts
writes during this call (`_set_meta` opens, writes and commits; a failure
raises and nothing is persisted).  `now` is the single `time.time()`
reading taken in the call.  The success path persists both metadata keys,
enqueues, and then hits the `NameError` in `_ensure_worker_running`, so it
ends in `PyResult.exc` with the state fully updated. -/
def handle_alert (cfg : ListenerConfig) (st : ListenerState) (ledgerOk : Bool)
    (severity : ℚ) (triggerId : Nat) (now : ℚ) : PyResult × ListenerState :=
  if severity < cfg.severityThreshold then
    (PyResult.ret false, st)
  else if now - st.lastSeen triggerId < cfg.debounceSeconds then
    (PyResult.ret false, st)
  else if now - st.lastJob < cfg.cooldownSeconds then
    (PyResult.ret false, st)
  else if cfg.maxQueueSize ≤ st.queue.length then
    (PyResult.ret false, st)
  else if ledgerOk = false then
    (PyResult.exc, st)
  else
    (PyResult.exc,
      { lastSeen := fun t => if t = triggerId then now else st.lastSeen t
        lastJob := now
        queue := st.queue ++ [(severity, triggerId)] })

/-! ### Schedule Optimizer — `src/apex_flow/scheduler/optimizer.py`

`should_trigger` applies, in order: a severity floor, a cooldown against
the most recent row of the `retrain_log` table, and (on configured
"weekend" weekdays) a cap on the retrains of the trailing 24 hours; on
success it appends a fresh timestamp to the log.  SQLite details mapped:
the log is the list of `retrain_log.timestamp` values in `id`
(= insertion) order; `_get_last_timestamp` is `List.getLast?`;
`_recent_retrains n` counts rows with `timestamp > now - n`.  Python's
`if last_ts and ...` treats both `None` and a stored `0.0` as "no previous
retrain" — the embedding keeps that truthiness test. -/

/-- Optimizer configuration: `drift.severity_threshold` plus the
`schedule_optimizer` block (`cooldown_seconds`, `max_weekend_retrains`,
`weekend_days`). -/
structure OptimizerConfig where
  severityThreshold : ℚ
  cooldownSeconds : ℚ
  maxWeekendRetrains : Nat
  weekendDays : List Nat

/-- `should_trigger`, returning the decision and the updated retrain log.
`now` is the `time.time()` reading of the call and `weekday` is
`time.localtime().tm_wday` (0 = Monday). -/
def should_trigger (cfg : OptimizerConfig) (retrainLog : List ℚ)
    (severity : ℚ) (now : ℚ) (weekday : Nat) : Bool × List ℚ :=
  if severity < cfg.severityThreshold then
    (false, retrainLog)
  else if (match retrainLog.getLast? with
           | some t => t ≠ 0 && decide (now - t < cfg.cooldownSeconds)
           | none => false) then
    (false, retrainLog)
  else if weekday ∈ cfg.weekendDays ∧
      cfg.maxWeekendRetrains ≤ (retrainLog.filter (fun t => now - 24 * 3600 < t)).length then
    (false, retrainLog)
  else
    (true, retrainLog ++ [now])

/-! ### Resource Manager — `src/apex_flow/resource_manager.py`

`submit_job` rejects when the queue is full or the `psutil` probe reports
insufficient free cores/memory for the job's declared requirement
(defaulting to the static `resource` configuration); otherwise it enqueues
into a `queue.PriorityQueue`, whose backing store is CPython's `heapq`
list.  `TrainingJob.__lt__` compares `priority` only, so the heap order is
exactly the order `<` on priorities.  The heap functions below mirror
CPython's `heapq.heappush` / `heapq.heappop` (`_siftdown` / `_siftup`)
literally, with `heap[i] = x` as `List.set` on a length-preserving list. -/

/-- `TrainingJob`: `priority` (lower = served first) and the optional
per-job resource overrides (`resources` dict).  `tag` stands for the
opaque payload `func` and makes submission order observable; it plays no
part in any comparison, exactly as in the source where `__lt__` compares
`priority` only. -/
structure TrainingJob where
  priority : Nat
  tag : Nat
  cpuReq : Option ℚ := none
  memReq : Option ℚ := none
deriving DecidableEq, Repr, Inhabited

/-- `heap[i]` — list indexing; every use below is in bounds, so the
`Inhabited` default never surfaces. -/
def getI (l : List TrainingJob) (i : Nat) : TrainingJob :=
  l.getD i default

/-- The loop of CPython's `heapq._siftdown(heap, startpos, pos)`: while
`pos > startpos`, move the parent down whenever `newitem < parent`
(`TrainingJob.__lt__`: priority comparison).  Returns the written list and
the resting position; the trailing `heap[pos] = newitem` write lives in
`siftdown`. -/
def siftdownLoop (startpos : Nat) (newitem : TrainingJob)
    (l : List TrainingJob) (pos : Nat) : List TrainingJob × Nat :=
  if startpos < pos then
    if newitem.priority < (getI l ((pos - 1) / 2)).priority then
      siftdownLoop startpos newitem (l.set pos (getI l ((pos - 1) / 2))) ((pos - 1) / 2)
    else
      (l, pos)
  else
    (l, pos)
termination_by pos
decreasing_by omega

/-- CPython `heapq._siftdown(heap, startpos, pos)`. -/
def siftdown (l : List TrainingJob) (startpos pos : Nat) : List TrainingJob :=
  (siftdownLoop startpos (getI l pos) l pos).1.set
    (siftdownLoop startpos (getI l pos) l pos).2 (getI l pos)

/-- The child CPython `_siftup` selects at `pos` (`childpos` after the
tie-breaking `if`): the right child `2*pos+2` when it exists and the left
one is not strictly smaller, else the left child `2*pos+1`. -/
def childIndex (l : List TrainingJob) (endpos pos : Nat) : Nat :=
  if 2 * pos + 2 < endpos ∧
      ¬ (getI l (2 * pos + 1)).priority < (getI l (2 * pos + 2)).priority then
    2 * pos + 2
  else
    2 * pos + 1

/-- The loop of CPython's `heapq._siftup(heap, pos)`: while a child
exists, pick the smaller child (the right one when neither is strictly
smaller) and move it up, descending to a leaf. -/
def siftupLoop (endpos : Nat) (l : List TrainingJob) (pos : Nat) :
    List TrainingJob × Nat :=
  if 2 * pos + 1 < endpos then
    siftupLoop endpos (l.set pos (getI l (childIndex l endpos pos))) (childIndex l endpos pos)
  else
    (l, pos)
termination_by endpos - pos
decreasing_by
  rename_i h
  unfold childIndex
  split <;> omega

/-- CPython `heapq._siftup(heap, pos)`: descend to a leaf, write `newitem`
(the starting `heap[pos]`) there, then bubble it up with
`_siftdown(heap, startpos, pos)`. -/
def siftup (l : List TrainingJob) (pos : Nat) : List TrainingJob :=
  siftdown ((siftupLoop l.length l pos).1.set (siftupLoop l.length l pos).2 (getI l pos))
    pos (siftupLoop l.length l pos).2

/-- CPython `heapq.heappush(heap, item)`: append, then
`_siftdown(heap, 0, len(heap) - 1)`. -/
def heappush (l : List TrainingJob) (item : TrainingJob) : List TrainingJob :=
  siftdown (l ++ [item]) 0 l.length

/-- CPython `heapq.heappop(heap)`: `lastelt = heap.pop()` (`none` when the
heap is empty — `IndexError`), then either return `lastelt` (heap now
empty) or replace the root, `_siftup(heap, 0)`, and return the old root. -/
def heappop (l : List TrainingJob) : Option (TrainingJob × List TrainingJob) :=
  match l.getLast? with
  | none => none
  | some lastelt =>
    if l.dropLast.isEmpty then
      some (lastelt, [])
    else
      some (getI l.dropLast 0, siftup (l.dropLast.set 0 lastelt) 0)

/-- Repeated `heappop` with explicit fuel (each pop shortens the list by
one, so `l.length` fuel drains completely — `drain`). -/
def drainFuel : Nat → List TrainingJob → List TrainingJob
  | 0, _ => []
  | fuel + 1, l =>
    match heappop l with
    | none => []
    | some (x, rest) => x :: drainFuel fuel rest

/-- The sequence of jobs the `_worker` thread receives when it drains the
queue while no further submissions happen. -/
def drain (l : List TrainingJob) : List TrainingJob :=
  drainFuel l.length l

/-- The `resource` configuration block (`cpu_limit`, `memory_limit_mb`,
`max_queue_size`). -/
structure ResourceConfig where
  cpuLimit : ℚ
  memoryLimitMb : ℚ
  maxQueueSize : Nat

/-- One `psutil` reading: free cores and free memory in MB, as computed in
`_resource_available`. -/
structure Probe where
  freeCores : ℚ
  freeMemMb : ℚ

/-- `ResourceManager._resource_available`: the job's declared requirement
(falling back to the static configuration) against the probe:
`free_cores >= cpu_limit and free_mem_mb >= mem_limit`. -/
def resource_available (cfg : ResourceConfig) (probe : Probe) (job : TrainingJob) : Bool :=
  let cpuLimit := job.cpuReq.getD cfg.cpuLimit
  let memLimit := job.memReq.getD cfg.memoryLimitMb
  decide (cpuLimit ≤ probe.freeCores) && decide (memLimit ≤ probe.freeMemMb)

/-- `ResourceManager.submit_job`: reject when the queue is at capacity
(`PriorityQueue.full()`), reject when the probe reports insufficient
resources, otherwise `put_nowait` = `heappush` (after the capacity check,
`queue.Full` cannot occur in this single-submitter model). -/
def submit_job (cfg : ResourceConfig) (probe : Probe)
    (queue : List TrainingJob) (job : TrainingJob) : Bool × List TrainingJob :=
  if cfg.maxQueueSize ≤ queue.length then
    (false, queue)
  else if ¬ resource_available cfg probe job = true then
    (false, queue)
  else
    (true, heappush queue job)

/-- Sequential submission of a batch of jobs (the probe held fixed),
returning the per-job results and the final queue. -/
def submitAll (cfg : ResourceConfig) (probe : Probe) :
    List TrainingJob → List TrainingJob → List Bool × List TrainingJob
  | queue, [] => ([], queue)
  | queue, j :: js =>
    ((submit_job cfg probe queue j).1 ::
        (submitAll cfg probe (submit_job cfg probe queue j).2 js).1,
      (submitAll cfg probe (submit_job cfg probe queue j).2 js).2)

/-! ### Rollback Manager — `src/apex_flow/deployment/rollback.py`

`register_stable` deletes the row with `id = 1` from the `stable_model`
table and inserts `(1, run_id, version, now)`; `get_stable` selects the
`id = 1` row.  The table is modelled as the list of its rows in rowid
order. -/

/-- A row of the `stable_model` table. -/
structure StableRow where
  id : Nat
  runId : String
  version : String
  timestamp : ℚ

/-- `register_stable(run_id, version)`:
`DELETE FROM stable_model WHERE id = 1` then
`INSERT INTO stable_model (id, run_id, version, timestamp) VALUES (1, ...)`. -/
def register_stable (runId version : String) (now : ℚ)
    (table : List StableRow) : List StableRow :=
  (table.filter (fun row => decide (row.id ≠ 1))) ++ [⟨1, runId, version, now⟩]

/-- `get_stable()`: `SELECT run_id, version FROM stable_model WHERE id = 1`
(first matching row), or `None`. -/
def get_stable (table : List StableRow) : Option (String × String) :=
  (table.find? (fun row => decide (row.id = 1))).map (fun row => (row.runId, row.version))

/-- A sequence of `register_stable` calls applied in order. -/
def registerAll (calls : List (String × String × ℚ)) (table : List StableRow) :
    List StableRow :=
  calls.foldl (fun t c => register_stable c.1 c.2.1 c.2.2 t) table

/-! ### Orchestrating Flow — `src/apex_flow/orchestration/prefect_flow.py`

`retraining_pipeline` threads one attempt through the collaborators.  A
`False` schedule decision emits `retraining_skipped` and returns; a
negative readiness check makes `prepare_data` raise `RuntimeError` (which
propagates — nothing is emitted); a training failure likewise raises; a
gate rejection emits `validation_failed` and rolls back; a comparator
rejection reaches `register_and_notify(promoted=False)` which rolls back
and emits `model_rollback`; promotion registers the stable model and emits
`model_promoted`. -/

/-- The event names `emit` receives from `retraining_pipeline`. -/
inductive EventName where
  | retrainingSkipped
  | validationFailed
  | modelPromoted
  | modelRollback
deriving DecidableEq, Repr

/-- Terminal outcome of one `retraining_pipeline` run.  `dataNotReady` and
`trainingFailed` are the `RuntimeError`s raised inside `prepare_data` /
`train_model` that propagate out of the flow. -/
inductive FlowOutcome where
  | scheduleRejected
  | dataNotReady
  | trainingFailed
  | validationRejected
  | comparisonRejected
  | promoted
deriving DecidableEq, Repr

/-- The external collaborators' answers during one run: the schedule
decision (`should_trigger`), data readiness, training success, the gate
decision, the comparator decision. -/
structure CollaboratorRun where
  scheduleOk : Bool
  dataReady : Bool
  trainOk : Bool
  gateOk : Bool
  promote : Bool

/-- `retraining_pipeline(severity, trigger_id, season, circuit)` as the
outcome it terminates with and the list of events emitted, in order. -/
def retraining_pipeline (c : CollaboratorRun) : FlowOutcome × List EventName :=
  if c.scheduleOk = false then
    (FlowOutcome.scheduleRejected, [EventName.retrainingSkipped])
  else if c.dataReady = false then
    (FlowOutcome.dataNotReady, [])
  else if c.trainOk = false then
    (FlowOutcome.trainingFailed, [])
  else if c.gateOk = false then
    (FlowOutcome.validationRejected, [EventName.validationFailed])
  else if c.promote = false then
    (FlowOutcome.comparisonRejected, [EventName.modelRollback])
  else
    (FlowOutcome.promoted, [EventName.modelPromoted])

/-- The `heapq` invariant maintained by `queue.PriorityQueue`: no child
compares `<` its parent, i.e. (since `TrainingJob.__lt__` compares
priorities in a total order) every parent's priority is at most its
children's. -/
def IsHeap (l : List TrainingJob) : Prop :=
  ∀ c, 0 < c → c < l.length →
    (getI l ((c - 1) / 2)).priority ≤ (getI l c).priority

/-- Invariant of the bubble-up loop, for the list with the moving item
written at the hole `pos`: the heap property holds at every parent-child
pair whose child is not `pos`, and the children of `pos` dominate the
parent of `pos`. -/
def AlmostInv (lf : List TrainingJob) (pos : Nat) : Prop :=
  (∀ c, 0 < c → c < lf.length → c ≠ pos →
    (getI lf ((c - 1) / 2)).priority ≤ (getI lf c).priority) ∧
  (0 < pos → ∀ c, 0 < c → c < lf.length → (c - 1) / 2 = pos →
    (getI lf ((pos - 1) / 2)).priority ≤ (getI lf c).priority)

/-- Invariant of the `_siftup` descent: the heap property holds at every
parent-child pair not involving the hole `pos` at all, and the children of
`pos` dominate the parent of `pos` (the value sitting at `pos` itself is
unconstrained). -/
def DInv (l : List TrainingJob) (pos : Nat) : Prop :=
  (∀ c, 0 < c → c < l.length → c ≠ pos → (c - 1) / 2 ≠ pos →
    (getI l ((c - 1) / 2)).priority ≤ (getI l c).priority) ∧
  (0 < pos → ∀ c, 0 < c → c < l.length → (c - 1) / 2 = pos →
    (getI l ((pos - 1) / 2)).priority ≤ (getI l c).priority)

/-!
## Theorems
-/

/-- C1 counterexample: the gate accepts a candidate against a baseline file
that is present, with correctly sized stored predictions but *no* `mae`
entry on either slice — `baseline.get("mae", float("inf"))` makes the
improvement check vacuously true, so acceptance does not require baseline
metrics to be available (the gate fails open on a baseline slice without
metrics, against the claim's "in every other case it returns false"). -/
theorem C1_gate_accepts_without_baseline_mae :
    validate (1/20) (fun _ _ => some (1/100))
      { yHoldout := [0, 0], holdoutPred := [1, 1],
        yRecent := [0], recentPred := [0],
        baseline := some (⟨none, [3, 3]⟩, ⟨none, [2]⟩) } = true ∧
    (⟨none, [3, 3]⟩ : BaselineSlice).mae = none ∧
    (⟨none, [2]⟩ : BaselineSlice).mae = none := by
  refine ⟨?_, rfl, rfl⟩
  norm_num [validate]

/-- The code's improvement check against `baseline.get("mae", inf)` holds
iff the candidate MAE is strictly below every recorded baseline MAE
(vacuously when the slice records none). -/
theorem improvement_match_iff (o : Option ℚ) (c : ℚ) :
    (match o with
      | some m => decide (c < m)
      | none => true) = true ↔ (∀ m, o = some m → c < m) := by
  rcases o with _ | m
  · simp
  · simp

/-- C1 amended: `ValidationGate.validate` accepts iff the baseline file is
loadable for both slices, the stored baseline predictions match the
targets in length, both paired t-tests are computable, both p-values are
strictly below the significance level, and the candidate MAE is strictly
below the recorded baseline MAE on each slice that records one — a slice
without an `mae` entry is compared against the `+inf` default and passes
vacuously.  With a missing baseline file it returns `false`, and it never
raises (the embedding is a total boolean function). -/
theorem C1_validate_accept_iff (sig : ℚ) (ttest : List ℚ → List ℚ → Option ℚ)
    (inp : GateInput) :
    (inp.baseline = none → validate sig ttest inp = false) ∧
    (∀ bh br, inp.baseline = some (bh, br) →
      (validate sig ttest inp = true ↔
        (bh.predictions.length = inp.yHoldout.length ∧
         br.predictions.length = inp.yRecent.length ∧
         ∃ pH pR,
           ttest inp.holdoutPred bh.predictions = some pH ∧
           ttest inp.recentPred br.predictions = some pR ∧
           (∀ m, bh.mae = some m → computeMae inp.yHoldout inp.holdoutPred < m) ∧
           (∀ m, br.mae = some m → computeMae inp.yRecent inp.recentPred < m) ∧
           pH < sig ∧ pR < sig))) := by
  constructor
  · intro h
    simp [validate, h]
  · intro bh br hb
    simp only [validate, hb]
    by_cases hlen : bh.predictions.length ≠ inp.yHoldout.length ∨
        br.predictions.length ≠ inp.yRecent.length
    · rw [if_pos hlen]
      constructor
      · intro h
        exact (Bool.false_ne_true h).elim
      · rintro ⟨h1, h2, -⟩
        rcases hlen with h | h
        · exact (h h1).elim
        · exact (h h2).elim
    · rw [if_neg hlen]
      push_neg at hlen
      rcases h1 : ttest inp.holdoutPred bh.predictions with _ | pH
      · simp [hlen.1, hlen.2, h1]
      · rcases h2 : ttest inp.recentPred br.predictions with _ | pR
        · simp [hlen.1, hlen.2, h1, h2]
        · simp only [Bool.and_eq_true, decide_eq_true_eq, improvement_match_iff]
          constructor
          · rintro ⟨⟨i1, i2⟩, s1, s2⟩
            exact ⟨hlen.1, hlen.2, pH, pR, rfl, rfl, i1, i2, s1, s2⟩
          · rintro ⟨-, -, pH', pR', e1, e2, i1, i2, s1, s2⟩
            cases e1
            cases e2
            exact ⟨⟨i1, i2⟩, s1, s2⟩

/-- C1 amended witness: a concrete accepting run of the gate against a
baseline that records MAE values for both slices. -/
theorem C1_validate_accept_iff_witness :
    validate (1/20) (fun _ _ => some (1/100))
      { yHoldout := [0, 0], holdoutPred := [1, 1],
        yRecent := [0], recentPred := [0],
        baseline := some (⟨some 2, [3, 3]⟩, ⟨some 1, [2]⟩) } = true := by
  refine ((C1_validate_accept_iff (1/20) (fun _ _ => some (1/100)) _).2
    ⟨some 2, [3, 3]⟩ ⟨some 1, [2]⟩ rfl).mpr
    ⟨rfl, rfl, 1/100, 1/100, rfl, rfl, ?_, ?_, by norm_num, by norm_num⟩
  · intro m hm
    rw [Option.some_inj] at hm
    rw [← hm]
    show computeMae [0, 0] [1, 1] < 2
    norm_num [computeMae, List.zip]
  · intro m hm
    rw [Option.some_inj] at hm
    rw [← hm]
    show computeMae [0] [0] < 1
    norm_num [computeMae, List.zip]

/-- For a nonnegative threshold, `delta < -thr` says exactly "negative with
absolute value strictly above the threshold". -/
theorem lt_neg_thr_iff (a t : ℚ) (ht : 0 ≤ t) : a < -t ↔ a < 0 ∧ t < |a| := by
  constructor
  · intro h
    have ha : a < 0 := lt_of_lt_of_le h (by linarith)
    refine ⟨ha, ?_⟩
    rw [abs_of_neg ha]
    linarith
  · rintro ⟨ha, habs⟩
    rw [abs_of_neg ha] at habs
    linarith

/-- C2: with a nonnegative improvement threshold,
`PerformanceComparator.compare` promotes iff a production model was loaded
and, for each metric (MAE, RMSE) on each slice (hold-out, recent), the
delta `candidate - production` is negative with absolute value strictly
greater than the threshold; with no production model it returns `false`. -/
theorem C2_compare_promote_iff (thr : ℚ) (hthr : 0 ≤ thr)
    (prodLoad : Option (Metrics × Metrics)) (candHoldout candRecent : Metrics) :
    (prodLoad = none → compare thr prodLoad candHoldout candRecent = false) ∧
    (∀ prodHoldout prodRecent, prodLoad = some (prodHoldout, prodRecent) →
      (compare thr prodLoad candHoldout candRecent = true ↔
        ((candHoldout.mae - prodHoldout.mae < 0 ∧ thr < |candHoldout.mae - prodHoldout.mae|) ∧
         (candRecent.mae - prodRecent.mae < 0 ∧ thr < |candRecent.mae - prodRecent.mae|) ∧
         (candHoldout.rmse - prodHoldout.rmse < 0 ∧ thr < |candHoldout.rmse - prodHoldout.rmse|) ∧
         (candRecent.rmse - prodRecent.rmse < 0 ∧ thr < |candRecent.rmse - prodRecent.rmse|)))) := by
  constructor
  · intro h
    simp [compare, h]
  · intro prodHoldout prodRecent hp
    simp only [compare, hp, Bool.and_eq_true, decide_eq_true_eq]
    rw [lt_neg_thr_iff _ _ hthr, lt_neg_thr_iff _ _ hthr,
      lt_neg_thr_iff _ _ hthr, lt_neg_thr_iff _ _ hthr]
    tauto

/-- C2 witness: a concrete promotion (production MAE 1, RMSE 6/5 on both
slices; candidate MAE and RMSE 9/10 on both slices; threshold 1/100). -/
theorem C2_compare_promote_iff_witness :
    compare (1/100) (some (⟨1, 6/5⟩, ⟨1, 6/5⟩)) ⟨9/10, 9/10⟩ ⟨9/10, 9/10⟩ = true := by
  refine ((C2_compare_promote_iff (1/100) (by norm_num)
    (some (⟨1, 6/5⟩, ⟨1, 6/5⟩)) ⟨9/10, 9/10⟩ ⟨9/10, 9/10⟩).2 ⟨1, 6/5⟩ ⟨1, 6/5⟩ rfl).mpr ?_
  norm_num [abs_of_nonneg]

/-- C3 counterexample: two calls 100 seconds apart (debounce window 300)
for the same trigger id 7 on a fresh listener; the first is rejected for
low severity (persisting nothing), so the second is *not* suppressed — it
passes every check and enqueues (ending in the success-path exception, not
in a `False` return). -/
theorem C3_second_call_not_suppressed :
    (handle_alert ⟨7/10, 300, 600, 5⟩
        ((handle_alert ⟨7/10, 300, 600, 5⟩ ⟨fun _ => 0, 0, []⟩ true 0 7 1000).2)
        true (9/10) 7 1100).1 ≠ PyResult.ret false ∧
    (handle_alert ⟨7/10, 300, 600, 5⟩ ⟨fun _ => 0, 0, []⟩ true 0 7 1000).1 =
      PyResult.ret false ∧
    ((1100 : ℚ) - 1000 < 300) := by
  have h1 : (handle_alert ⟨7/10, 300, 600, 5⟩ ⟨fun _ => 0, 0, []⟩ true 0 7 1000).2 =
      (⟨fun _ => 0, 0, []⟩ : ListenerState) := by
    norm_num [handle_alert]
  have h2 : (handle_alert ⟨7/10, 300, 600, 5⟩ ⟨fun _ => 0, 0, []⟩ true (9/10) 7 1100).1 =
      PyResult.exc := by
    norm_num [handle_alert]
  refine ⟨?_, by norm_num [handle_alert], by norm_num⟩
  rw [h1, h2]
  simp

/-- C3 amended: if the first call passed every admission check (with the
ledger writable — with `ledgerOk = true` the only path ending in the
success exception is the one that persisted `last_{trigger_id} = now₁` and
enqueued), then any second call for the same trigger id within
`debounce_seconds` returns `False`. -/
theorem C3_debounce_suppression (cfg : ListenerConfig) (st : ListenerState)
    (sev1 sev2 : ℚ) (triggerId : Nat) (now1 now2 : ℚ) (ledgerOk2 : Bool)
    (h1 : (handle_alert cfg st true sev1 triggerId now1).1 = PyResult.exc)
    (h2 : now2 - now1 < cfg.debounceSeconds) :
    (handle_alert cfg ((handle_alert cfg st true sev1 triggerId now1).2)
      ledgerOk2 sev2 triggerId now2).1 = PyResult.ret false := by
  have hstate : (handle_alert cfg st true sev1 triggerId now1).2 =
      { lastSeen := fun t => if t = triggerId then now1 else st.lastSeen t
        lastJob := now1
        queue := st.queue ++ [(sev1, triggerId)] } := by
    unfold handle_alert at h1 ⊢
    by_cases c1 : sev1 < cfg.severityThreshold
    · rw [if_pos c1] at h1
      exact absurd h1 (by simp)
    · rw [if_neg c1] at h1 ⊢
      by_cases c2 : now1 - st.lastSeen triggerId < cfg.debounceSeconds
      · rw [if_pos c2] at h1
        exact absurd h1 (by simp)
      · rw [if_neg c2] at h1 ⊢
        by_cases c3 : now1 - st.lastJob < cfg.cooldownSeconds
        · rw [if_pos c3] at h1
          exact absurd h1 (by simp)
        · rw [if_neg c3] at h1 ⊢
          by_cases c4 : cfg.maxQueueSize ≤ st.queue.length
          · rw [if_pos c4] at h1
            exact absurd h1 (by simp)
          · rw [if_neg c4, if_neg (by simp : ¬(true = false))]
  rw [hstate]
  unfold handle_alert
  by_cases d1 : sev2 < cfg.severityThreshold
  · rw [if_pos d1]
  · rw [if_neg d1]
    have hd : now2 - (if triggerId = triggerId then now1 else st.lastSeen triggerId) <
        cfg.debounceSeconds := by
      rw [if_pos rfl]
      exact h2
    rw [if_pos hd]

/-- C3 amended witness: first call at t=1000 passes all checks on a fresh
listener (severity 9/10 ≥ 7/10); the second call at t=1100 for the same
trigger is suppressed. -/
theorem C3_debounce_suppression_witness :
    (handle_alert ⟨7/10, 300, 600, 5⟩
      ((handle_alert ⟨7/10, 300, 600, 5⟩ ⟨fun _ => 0, 0, []⟩ true (9/10) 7 1000).2)
      true (9/10) 7 1100).1 = PyResult.ret false := by
  exact C3_debounce_suppression ⟨7/10, 300, 600, 5⟩ ⟨fun _ => 0, 0, []⟩
    (9/10) (9/10) 7 1000 1100 true (by norm_num [handle_alert]) (by norm_num)

/-- C9: a failing ledger write during `handle_alert` does not enqueue, but
it raises (the `_set_meta` calls in step 5 are not wrapped in `try/except`,
contradicting both the design document and the module docstring): on a
fresh listener, an alert passing every check with an unwritable ledger ends
in the propagated SQLite exception rather than a `False` return. -/
theorem C9_ledger_failure_raises :
    (handle_alert ⟨7/10, 300, 600, 5⟩ ⟨fun _ => 0, 0, []⟩ false (9/10) 7 1000).1 =
      PyResult.exc ∧
    (handle_alert ⟨7/10, 300, 600, 5⟩ ⟨fun _ => 0, 0, []⟩ false (9/10) 7 1000).2.queue =
      [] ∧
    (handle_alert ⟨7/10, 300, 600, 5⟩ ⟨fun _ => 0, 0, []⟩ false (9/10) 7 1000).1 ≠
      PyResult.ret false := by
  have h : (handle_alert ⟨7/10, 300, 600, 5⟩ ⟨fun _ => 0, 0, []⟩ false (9/10) 7 1000).1 =
      PyResult.exc := by
    norm_num [handle_alert]
  refine ⟨h, by norm_num [handle_alert], ?_⟩
  rw [h]
  simp

/-- C4: provided every recorded timestamp is positive (they are written by
`time.time()`, so the Python truthiness test `if last_ts` coincides with
"a retrain is recorded"), `should_trigger` returns `true` iff the severity
reaches the floor, the time since the last recorded retrain is at least
the cooldown (or no retrain is recorded), and on a configured weekend day
the number of retrains in the trailing 24 hours is below the cap; and a
`true` return records `now` at the end of the log. -/
theorem C4_should_trigger_iff (cfg : OptimizerConfig) (retrainLog : List ℚ)
    (severity : ℚ) (now : ℚ) (weekday : Nat)
    (hpos : ∀ t ∈ retrainLog, 0 < t) :
    ((should_trigger cfg retrainLog severity now weekday).1 = true ↔
      (cfg.severityThreshold ≤ severity ∧
       (∀ t, retrainLog.getLast? = some t → cfg.cooldownSeconds ≤ now - t) ∧
       (weekday ∈ cfg.weekendDays →
         (retrainLog.filter (fun t => now - 24 * 3600 < t)).length < cfg.maxWeekendRetrains))) ∧
    ((should_trigger cfg retrainLog severity now weekday).1 = true →
      (should_trigger cfg retrainLog severity now weekday).2 = retrainLog ++ [now]) := by
  constructor
  · unfold should_trigger
    by_cases c1 : severity < cfg.severityThreshold
    · rw [if_pos c1]
      simp only [Bool.false_eq_true, false_iff]
      rintro ⟨h, -⟩
      exact absurd h (not_le.mpr c1)
    · rw [if_neg c1]
      rcases hlast : retrainLog.getLast? with _ | t
      · simp only [hlast]
        rw [if_neg (by simp)]
        by_cases c3 : weekday ∈ cfg.weekendDays ∧
            cfg.maxWeekendRetrains ≤ (retrainLog.filter (fun t => now - 24 * 3600 < t)).length
        · rw [if_pos c3]
          simp only [Bool.false_eq_true, false_iff]
          rintro ⟨-, -, hcap⟩
          exact absurd (hcap c3.1) (not_lt.mpr c3.2)
        · rw [if_neg c3]
          simp only [true_iff]
          push_neg at c3
          exact ⟨not_lt.mp c1, by simp, fun hw => c3 hw⟩
      · have htmem : t ∈ retrainLog := by
          rcases List.mem_getLast?_eq_getLast (Option.mem_def.mpr hlast) with ⟨hne, hEq⟩
          rw [hEq]
          exact List.getLast_mem hne
        have ht : t ≠ 0 := ne_of_gt (hpos t htmem)
        simp only [hlast]
        by_cases c2 : now - t < cfg.cooldownSeconds
        · rw [if_pos (by simp [ht, c2])]
          simp only [Bool.false_eq_true, false_iff]
          rintro ⟨-, hcool, -⟩
          exact absurd (hcool t rfl) (not_le.mpr c2)
        · rw [if_neg (by simp [c2])]
          by_cases c3 : weekday ∈ cfg.weekendDays ∧
              cfg.maxWeekendRetrains ≤ (retrainLog.filter (fun t => now - 24 * 3600 < t)).length
          · rw [if_pos c3]
            simp only [Bool.false_eq_true, false_iff]
            rintro ⟨-, -, hcap⟩
            exact absurd (hcap c3.1) (not_lt.mpr c3.2)
          · rw [if_neg c3]
            simp only [true_iff]
            push_neg at c3
            refine ⟨not_lt.mp c1, ?_, fun hw => c3 hw⟩
            intro t' ht'
            rw [Option.some_inj] at ht'
            rw [← ht']
            exact not_lt.mp c2
  · unfold should_trigger
    by_cases c1 : severity < cfg.severityThreshold
    · rw [if_pos c1]
      intro h
      exact absurd h (by simp)
    · rw [if_neg c1]
      split
      · intro h
        exact absurd h (by simp)
      · split
        · intro h
          exact absurd h (by simp)
        · intro
          rfl

/-- C4 witness: on a Saturday (weekday 5) with one old retrain recorded
(cooldown satisfied, cap not reached), a severity-0.9 request triggers and
appends the new timestamp. -/
theorem C4_should_trigger_iff_witness :
    (should_trigger ⟨7/10, 600, 3, [5, 6]⟩ [100] (9/10) 1000 5).1 = true ∧
    (should_trigger ⟨7/10, 600, 3, [5, 6]⟩ [100] (9/10) 1000 5).2 = [100, 1000] := by
  have h := C4_should_trigger_iff ⟨7/10, 600, 3, [5, 6]⟩ [100] (9/10) 1000 5
    (by intro t ht; simp at ht; rw [ht]; norm_num)
  have h1 : (should_trigger ⟨7/10, 600, 3, [5, 6]⟩ [100] (9/10) 1000 5).1 = true := by
    refine h.1.mpr ⟨by norm_num, ?_, ?_⟩
    · intro t ht
      simp at ht
      rw [← ht]
      norm_num
    · intro hd
      norm_num [List.filter]
  exact ⟨h1, h.2 h1⟩

/-- C10: `should_trigger` appends to the retrain log exactly when it
returns `true`; every rejection leaves the log unchanged. -/
theorem C10_reject_leaves_log_unchanged (cfg : OptimizerConfig) (retrainLog : List ℚ)
    (severity : ℚ) (now : ℚ) (weekday : Nat) :
    (should_trigger cfg retrainLog severity now weekday).2 =
      (if (should_trigger cfg retrainLog severity now weekday).1 = true then
        retrainLog ++ [now] else retrainLog) := by
  unfold should_trigger
  split
  · simp
  · split
    · simp
    · split
      · simp
      · simp

/-- The `_siftdown` loop only writes through `heap[i] = x`, so it
preserves the list length. -/
theorem siftdownLoop_length (startpos : Nat) (newitem : TrainingJob)
    (pos : Nat) : ∀ l, ((siftdownLoop startpos newitem l pos).1).length = l.length := by
  induction pos using Nat.strong_induction_on with
  | _ pos ih =>
    intro l
    rw [siftdownLoop]
    split
    · split
      · rw [ih _ (by omega)]
        simp
      · rfl
    · rfl

/-- `_siftdown` preserves the list length. -/
theorem siftdown_length (l : List TrainingJob) (startpos pos : Nat) :
    (siftdown l startpos pos).length = l.length := by
  unfold siftdown
  rw [List.length_set, siftdownLoop_length]

/-- The selected child lies strictly between `pos` and `endpos`. -/
theorem childIndex_bounds (l : List TrainingJob) (endpos pos : Nat)
    (h : 2 * pos + 1 < endpos) :
    pos < childIndex l endpos pos ∧ childIndex l endpos pos < endpos := by
  unfold childIndex
  split <;> omega

/-- The `_siftup` descent loop preserves the list length. -/
theorem siftupLoop_length (endpos : Nat) (pos : Nat) (l : List TrainingJob) :
    ((siftupLoop endpos l pos).1).length = l.length := by
  have H : ∀ n pos l, endpos - pos ≤ n →
      ((siftupLoop endpos l pos).1).length = l.length := by
    intro n
    induction n with
    | zero =>
      intro pos l h
      rw [siftupLoop, if_neg (by omega)]
    | succ n ihn =>
      intro pos l h
      rw [siftupLoop]
      split
      · rename_i hc
        have hb := childIndex_bounds l endpos pos hc
        rw [ihn _ _ (by omega)]
        simp
      · rfl
  exact H endpos pos l (by omega)

/-- `_siftup` preserves the list length. -/
theorem siftup_length (l : List TrainingJob) (pos : Nat) :
    (siftup l pos).length = l.length := by
  unfold siftup
  rw [siftdown_length, List.length_set, siftupLoop_length]

/-- `heappush` grows the heap by one element. -/
theorem heappush_length (l : List TrainingJob) (x : TrainingJob) :
    (heappush l x).length = l.length + 1 := by
  unfold heappush
  rw [siftdown_length, List.length_append]
  rfl

/-- `submitAll` produces one boolean per submitted job. -/
theorem submitAll_results_length (cfg : ResourceConfig) (probe : Probe) :
    ∀ (js : List TrainingJob) (q : List TrainingJob),
      (submitAll cfg probe q js).1.length = js.length := by
  intro js
  induction js with
  | nil =>
    intro q
    rfl
  | cons j js ih =>
    intro q
    simp only [submitAll, List.length_cons, ih]

/-- If the submitted batch overfills the queue by exactly one (all jobs
resource-admissible), the last submission is rejected. -/
theorem submitAll_last_rejected (cfg : ResourceConfig) (probe : Probe) :
    ∀ (js : List TrainingJob) (q : List TrainingJob),
      q.length + js.length = cfg.maxQueueSize + 1 →
      q.length ≤ cfg.maxQueueSize →
      (∀ j ∈ js, resource_available cfg probe j = true) →
      (submitAll cfg probe q js).1.getLast? = some false := by
  intro js
  induction js with
  | nil =>
    intro q hlen hq _
    simp at hlen
    omega
  | cons j js ih =>
    intro q hlen hq hav
    cases js with
    | nil =>
      have hfull : cfg.maxQueueSize ≤ q.length := by
        simp at hlen
        omega
      have hsub : submit_job cfg probe q j = (false, q) := by
        unfold submit_job
        rw [if_pos hfull]
      show ((submit_job cfg probe q j).1 ::
          (submitAll cfg probe (submit_job cfg probe q j).2 []).1).getLast? = some false
      rw [hsub]
      rfl
    | cons j2 js2 =>
      have hlt : q.length < cfg.maxQueueSize := by
        simp at hlen
        omega
      have hava : resource_available cfg probe j = true := hav j (by simp)
      have hsub : submit_job cfg probe q j = (true, heappush q j) := by
        unfold submit_job
        rw [if_neg (by omega), if_neg (by simp [hava])]
      have hih := ih (heappush q j)
        (by rw [heappush_length]; simp at hlen ⊢; omega)
        (by rw [heappush_length]; omega)
        (fun j' hj' => hav j' (List.mem_cons_of_mem j hj'))
      show ((submit_job cfg probe q j).1 ::
          (submitAll cfg probe (submit_job cfg probe q j).2 (j2 :: js2)).1).getLast? =
        some false
      rw [hsub]
      show (true :: (submitAll cfg probe (heappush q j) (j2 :: js2)).1).getLast? = some false
      rcases hrest : (submitAll cfg probe (heappush q j) (j2 :: js2)).1 with _ | ⟨b, bs⟩
      · have hl := submitAll_results_length cfg probe (j2 :: js2) (heappush q j)
        rw [hrest] at hl
        simp at hl
      · rw [hrest] at hih
        rw [List.getLast?_cons_cons]
        exact hih

/-- C5: `submit_job` returns `false` and leaves the queue unchanged exactly
when the queue is at capacity or the probe reports fewer free cores or less
free memory than the job's requirement (defaults from the static
configuration); and with resources always available, submitting `N+1` jobs
to a manager configured with `max_queue_size = N` makes the last
`submit_job` return `false`. -/
theorem C5_submit_job_rejections (cfg : ResourceConfig) (probe : Probe)
    (queue : List TrainingJob) (job : TrainingJob) :
    ((submit_job cfg probe queue job).1 = false ↔
      (cfg.maxQueueSize ≤ queue.length ∨
       probe.freeCores < job.cpuReq.getD cfg.cpuLimit ∨
       probe.freeMemMb < job.memReq.getD cfg.memoryLimitMb)) ∧
    ((submit_job cfg probe queue job).1 = false →
      (submit_job cfg probe queue job).2 = queue) ∧
    (∀ (n : Nat) (jobs : List TrainingJob), jobs.length = n + 1 →
      cfg.maxQueueSize = n →
      (∀ j ∈ jobs, resource_available cfg probe j = true) →
      (submitAll cfg probe [] jobs).1.getLast? = some false) := by
  refine ⟨?_, ?_, ?_⟩
  · unfold submit_job resource_available
    by_cases c1 : cfg.maxQueueSize ≤ queue.length
    · rw [if_pos c1]
      simp [c1]
    · rw [if_neg c1]
      by_cases c2 : job.cpuReq.getD cfg.cpuLimit ≤ probe.freeCores
      · by_cases c3 : job.memReq.getD cfg.memoryLimitMb ≤ probe.freeMemMb
        · rw [if_neg (by simp [c2, c3])]
          simp [c1, not_lt.mpr c2, not_lt.mpr c3]
        · rw [if_pos (by simp [c3])]
          simp [not_le.mp c3]
      · rw [if_pos (by simp [c2])]
        simp [not_le.mp c2]
  · unfold submit_job
    split
    · intro
      rfl
    · split
      · intro
        rfl
      · intro h
        exact absurd h (by simp)
  · intro n jobs hlen hmax hav
    refine submitAll_last_rejected cfg probe jobs [] ?_ ?_ hav
    · simp [hlen, hmax]
    · simp

/-- C5 witness: `max_queue_size = 1`, two admissible jobs: the second
submission is rejected. -/
theorem C5_submit_job_rejections_witness :
    (submitAll ⟨2, 2048, 1⟩ ⟨4, 4096⟩ [] [⟨5, 0, none, none⟩, ⟨5, 1, none, none⟩]).1.getLast? =
      some false := by
  refine (C5_submit_job_rejections ⟨2, 2048, 1⟩ ⟨4, 4096⟩ [] ⟨5, 0, none, none⟩).2.2
    1 [⟨5, 0, none, none⟩, ⟨5, 1, none, none⟩] rfl rfl ?_
  intro j hj
  simp only [List.mem_cons, List.not_mem_nil, or_false] at hj
  rcases hj with h | h <;> rw [h] <;> norm_num [resource_available]

/-- C6 counterexample: a run whose readiness check fails terminates (the
`RuntimeError` of `prepare_data` propagates) with *zero* notification
events, not one. -/
theorem C6_data_not_ready_emits_nothing :
    retraining_pipeline ⟨true, false, true, true, true⟩ =
      (FlowOutcome.dataNotReady, []) ∧
    (retraining_pipeline ⟨true, false, true, true, true⟩).2.length = 0 := by
  constructor <;> rfl

/-- C6 amended: runs ending in schedule rejection, validation rejection,
comparison rejection or promotion emit exactly one notification event; the
two abort outcomes (data not ready, training failure) propagate their
exception and emit none. -/
theorem C6_notification_per_outcome (c : CollaboratorRun) :
    ((retraining_pipeline c).1 = FlowOutcome.dataNotReady ∨
        (retraining_pipeline c).1 = FlowOutcome.trainingFailed →
      (retraining_pipeline c).2 = []) ∧
    ((retraining_pipeline c).1 ≠ FlowOutcome.dataNotReady →
      (retraining_pipeline c).1 ≠ FlowOutcome.trainingFailed →
      (retraining_pipeline c).2.length = 1) := by
  rcases c with ⟨s, d, t, g, p⟩
  cases s <;> cases d <;> cases t <;> cases g <;> cases p <;>
    exact ⟨by intro h; first | rfl | simp [retraining_pipeline] at h,
      by intro h1 h2; first | rfl | simp [retraining_pipeline] at h1 h2⟩

/-- C6 amended witness: a schedule-rejected run emits exactly one event. -/
theorem C6_notification_per_outcome_witness :
    (retraining_pipeline ⟨false, true, true, true, true⟩).2.length = 1 :=
  (C6_notification_per_outcome ⟨false, true, true, true, true⟩).2
    (by decide) (by decide)

/-- `register_stable` followed by `get_stable` reads back the registered
pair, on any starting table. -/
theorem register_stable_get (r v : String) (now : ℚ) (table : List StableRow) :
    get_stable (register_stable r v now table) = some (r, v) := by
  unfold get_stable register_stable
  rw [List.find?_append]
  have h1 : (table.filter (fun row => decide (row.id ≠ 1))).find?
      (fun row => decide (row.id = 1)) = none := by
    rw [List.find?_eq_none]
    intro x hx
    have hmem := List.of_mem_filter hx
    simp at hmem ⊢
    exact hmem
  rw [h1]
  rfl

/-- After any sequence of `register_stable` calls on a table whose rows all
carry `id = 1` and which has exactly one row, the table still has exactly
one row, all with `id = 1`. -/
theorem registerAll_invariant (calls : List (String × String × ℚ)) :
    ∀ table, (∀ row ∈ table, row.id = 1) → table.length = 1 →
      (registerAll calls table).length = 1 ∧
        ∀ row ∈ registerAll calls table, row.id = 1 := by
  induction calls with
  | nil =>
    intro t h1 h2
    exact ⟨h2, h1⟩
  | cons c cs ih =>
    intro t h1 h2
    have hreg : register_stable c.1 c.2.1 c.2.2 t = [⟨1, c.1, c.2.1, c.2.2⟩] := by
      unfold register_stable
      have hf : t.filter (fun row => decide (row.id ≠ 1)) = [] := by
        rw [List.filter_eq_nil_iff]
        intro a ha
        simp [h1 a ha]
      rw [hf]
      rfl
    have := ih [⟨1, c.1, c.2.1, c.2.2⟩] (by simp) rfl
    simpa [registerAll, List.foldl_cons, hreg] using this

/-- C7: `register_stable(r, v)` followed by `get_stable()` returns
`(r, v)` whatever the table held, and any nonempty sequence of
`register_stable` calls starting from the empty table leaves exactly one
live record (overwrite, never append). -/
theorem C7_register_stable_overwrites :
    (∀ (r v : String) (now : ℚ) (table : List StableRow),
        get_stable (register_stable r v now table) = some (r, v)) ∧
    (∀ calls : List (String × String × ℚ), calls ≠ [] →
        (registerAll calls []).length = 1) := by
  constructor
  · exact register_stable_get
  · intro calls hne
    rcases calls with _ | ⟨c, cs⟩
    · exact absurd rfl hne
    · have h0 : register_stable c.1 c.2.1 c.2.2 [] = [⟨1, c.1, c.2.1, c.2.2⟩] := rfl
      have := (registerAll_invariant cs [⟨1, c.1, c.2.1, c.2.2⟩] (by simp) rfl).1
      simpa [registerAll, List.foldl_cons, h0] using this

/-- C7 witness: register twice, read back the second registration; one
live row remains. -/
theorem C7_register_stable_overwrites_witness :
    get_stable (register_stable ("run123") ("2") 5
      (register_stable ("a") ("1") 3 [])) = some (("run123"), ("2")) ∧
    (registerAll [(("run123"), ("2"), (5 : ℚ))] []).length = 1 := by
  exact ⟨C7_register_stable_overwrites.1 ("run123") ("2") 5 _,
    C7_register_stable_overwrites.2 _ (by simp)⟩

theorem getI_set_self (l : List TrainingJob) (i : Nat) (x : TrainingJob)
    (h : i < l.length) : getI (l.set i x) i = x := by
  unfold getI
  rw [List.getD_eq_getElem?_getD, List.getElem?_set_self (by simpa using h)]
  rfl

theorem getI_set_ne (l : List TrainingJob) (i j : Nat) (x : TrainingJob)
    (h : i ≠ j) : getI (l.set i x) j = getI l j := by
  unfold getI
  rw [List.getD_eq_getElem?_getD, List.getElem?_set_ne h, ← List.getD_eq_getElem?_getD]

theorem set_getI_self (l : List TrainingJob) (i : Nat) (h : i < l.length) :
    l.set i (getI l i) = l := by
  unfold getI
  rw [List.getD_eq_getElem _ _ h]
  apply List.ext_getElem
  · simp
  · intro n h1 h2
    by_cases hne : n = i
    · subst hne
      rw [List.getElem_set_self]
    · rw [List.getElem_set_ne (fun hx => hne hx.symm)]

theorem getI_mem (l : List TrainingJob) (i : Nat) (h : i < l.length) : getI l i ∈ l := by
  unfold getI
  rw [List.getD_eq_getElem _ _ h]
  exact List.getElem_mem h

/-- One bubble-up swap preserves the bubble-up invariant, moving the hole
to the parent. -/
theorem almostInv_step (lf : List TrainingJob) (pos : Nat)
    (hpos : 0 < pos) (hlen : pos < lf.length)
    (hinv : AlmostInv lf pos)
    (hlt : (getI lf pos).priority < (getI lf ((pos - 1) / 2)).priority) :
    AlmostInv ((lf.set pos (getI lf ((pos - 1) / 2))).set ((pos - 1) / 2) (getI lf pos))
      ((pos - 1) / 2) := by
  obtain ⟨h1, h2⟩ := hinv
  set p := (pos - 1) / 2 with hp
  have hppos : p < pos := by omega
  have hplen : p < lf.length := by omega
  set a := getI lf pos with ha
  set b := getI lf p with hb
  set lf' := (lf.set pos b).set p a with hlf
  have hlen' : lf'.length = lf.length := by simp [hlf]
  have hvp : getI lf' p = a := getI_set_self _ _ _ (by simpa [hlf] using hplen)
  have hvpos : getI lf' pos = b := by
    rw [hlf, getI_set_ne _ _ _ _ (by omega), getI_set_self _ _ _ hlen]
  have hvother : ∀ j, j ≠ p → j ≠ pos → getI lf' j = getI lf j := by
    intro j hj1 hj2
    rw [hlf, getI_set_ne _ _ _ _ (Ne.symm hj1), getI_set_ne _ _ _ _ (Ne.symm hj2)]
  constructor
  · intro c hc hclen hcp
    rw [hlen'] at hclen
    by_cases hcpos : c = pos
    · subst hcpos
      have : (c - 1) / 2 = p := hp.symm
      rw [this, hvp, hvpos]
      exact le_of_lt hlt
    · by_cases hparp : (c - 1) / 2 = p
      · -- sibling of pos under p
        rw [hparp, hvp, hvother c hcp hcpos]
        calc a.priority ≤ b.priority := le_of_lt hlt
          _ ≤ (getI lf c).priority := by
            have hx := h1 c hc hclen hcpos
            rw [hparp] at hx
            exact hx
      · by_cases hparpos : (c - 1) / 2 = pos
        · -- child of pos
          rw [hparpos, hvpos, hvother c hcp hcpos]
          exact h2 hpos c hc hclen hparpos
        · rw [hvother _ hparp hparpos, hvother c hcp hcpos]
          exact h1 c hc hclen hcpos
  · intro hppos' c hc hclen hpar
    rw [hlen'] at hclen
    have hgne1 : (p - 1) / 2 ≠ p := by omega
    have hgne2 : (p - 1) / 2 ≠ pos := by omega
    rw [hvother _ hgne1 hgne2]
    by_cases hcpos : c = pos
    · subst hcpos
      rw [hvpos]
      exact h1 p hppos' hplen (by omega)
    · have hcp : c ≠ p := by omega
      rw [hvother c hcp hcpos]
      calc (getI lf ((p - 1) / 2)).priority ≤ (getI lf p).priority :=
            h1 p hppos' hplen (by omega)
        _ ≤ (getI lf c).priority := by
            have hx := h1 c hc hclen hcpos
            rw [hpar] at hx
            exact hx


/-- At exit the bubble-up loop (with `startpos = 0`, the only start
position the source uses) restores the heap invariant once `newitem` is
written at the resting position. -/
theorem siftdownLoop_heap (newitem : TrainingJob) :
    ∀ pos l, pos < l.length →
      AlmostInv (l.set pos newitem) pos →
      IsHeap ((siftdownLoop 0 newitem l pos).1.set (siftdownLoop 0 newitem l pos).2 newitem) := by
  intro pos
  induction pos using Nat.strong_induction_on with
  | _ pos ih =>
    intro l hlen hinv
    rw [siftdownLoop]
    by_cases hpos : 0 < pos
    · rw [if_pos hpos]
      by_cases hcmp : newitem.priority < (getI l ((pos - 1) / 2)).priority
      · rw [if_pos hcmp]
        have hplt : (pos - 1) / 2 < pos := by omega
        refine ih ((pos - 1) / 2) hplt (l.set pos (getI l ((pos - 1) / 2))) ?_ ?_
        · rw [List.length_set]
          omega
        · have hkey : (l.set pos (getI l ((pos - 1) / 2))).set ((pos - 1) / 2) newitem =
              ((l.set pos newitem).set pos (getI (l.set pos newitem) ((pos - 1) / 2))).set
                ((pos - 1) / 2) (getI (l.set pos newitem) pos) := by
            rw [List.set_set, getI_set_ne l pos ((pos - 1) / 2) newitem (by omega),
              getI_set_self l pos newitem hlen]
          rw [hkey]
          have harg : (getI (l.set pos newitem) pos).priority <
              (getI (l.set pos newitem) ((pos - 1) / 2)).priority := by
            rw [getI_set_self l pos newitem hlen,
              getI_set_ne l pos ((pos - 1) / 2) newitem (by omega)]
            exact hcmp
          exact almostInv_step (l.set pos newitem) pos hpos (by simpa using hlen) hinv harg
      · rw [if_neg hcmp]
        intro c hc hclen
        simp only [List.length_set] at hclen
        by_cases hcpos : c = pos
        · subst hcpos
          rw [getI_set_ne l c ((c - 1) / 2) newitem (by omega),
            getI_set_self l c newitem hlen]
          exact not_lt.mp hcmp
        · exact hinv.1 c hc (by simpa using hclen) hcpos
    · rw [if_neg hpos]
      intro c hc hclen
      simp only [List.length_set] at hclen
      exact hinv.1 c hc (by simpa using hclen) (by omega)


theorem getI_append (l l2 : List TrainingJob) (i : Nat) (h : i < l.length) :
    getI (l ++ l2) i = getI l i := by
  unfold getI
  rw [List.getD_eq_getElem _ _ (by simp; omega), List.getD_eq_getElem _ _ h,
    List.getElem_append_left]

theorem getI_append_len (l : List TrainingJob) (x : TrainingJob) :
    getI (l ++ [x]) l.length = x := by
  unfold getI
  rw [List.getD_eq_getElem _ _ (by simp)]
  exact List.getElem_concat_length l x l.length rfl (by simp)

/-- `heappush` preserves the heap invariant. -/
theorem heappush_isHeap (l : List TrainingJob) (x : TrainingJob) (h : IsHeap l) :
    IsHeap (heappush l x) := by
  unfold heappush siftdown
  have hx : getI (l ++ [x]) l.length = x := getI_append_len l x
  have hlt : l.length < (l ++ [x]).length := by
    simp only [List.length_append, List.length_cons, List.length_nil]
    omega
  rw [hx]
  apply siftdownLoop_heap x l.length (l ++ [x]) hlt
  have hself := set_getI_self (l ++ [x]) l.length hlt
  rw [hx] at hself
  rw [hself]
  constructor
  · intro c hc hclen hcne
    have hclt : c < l.length := by
      simp at hclen
      omega
    rw [getI_append l [x] c hclt, getI_append l [x] ((c - 1) / 2) (by omega)]
    exact h c hc hclt
  · intro hpos c hc hclen hpar
    simp at hclen
    omega

/-- The selected child is one of the two children, is a minimal child
(ties resolved to the right, as in CPython), and its parent is `pos`. -/
theorem childIndex_spec (l : List TrainingJob) (endpos pos : Nat)
    (_h : 2 * pos + 1 < endpos) :
    (childIndex l endpos pos = 2 * pos + 1 ∨
      (childIndex l endpos pos = 2 * pos + 2 ∧ 2 * pos + 2 < endpos)) ∧
    (getI l (childIndex l endpos pos)).priority ≤ (getI l (2 * pos + 1)).priority ∧
    (2 * pos + 2 < endpos →
      (getI l (childIndex l endpos pos)).priority ≤ (getI l (2 * pos + 2)).priority) ∧
    (childIndex l endpos pos - 1) / 2 = pos := by
  unfold childIndex
  split
  · rename_i hcond
    exact ⟨Or.inr ⟨rfl, hcond.1⟩, not_lt.mp hcond.2, fun _ => le_refl _, by omega⟩
  · rename_i hcond
    refine ⟨Or.inl rfl, le_refl _, ?_, by omega⟩
    intro hr
    rcases not_and_or.mp hcond with hc | hc
    · exact absurd hr hc
    · exact le_of_lt (not_not.mp hc)

/-- One descent step of `_siftup` preserves the descent invariant, moving
the hole to the selected child. -/
theorem dInv_step (l : List TrainingJob) (endpos pos : Nat) (hlen : endpos = l.length)
    (h : 2 * pos + 1 < endpos) (hinv : DInv l pos) :
    DInv (l.set pos (getI l (childIndex l endpos pos))) (childIndex l endpos pos) := by
  subst hlen
  obtain ⟨h1, h2⟩ := hinv
  obtain ⟨hor, hminl, hminr, hpar⟩ := childIndex_spec l l.length pos h
  have hchgt : pos < childIndex l l.length pos := by omega
  have hchlt : childIndex l l.length pos < l.length := by omega
  set ch := childIndex l l.length pos with hch
  set lch := getI l ch with hlch
  have hvpos : getI (l.set pos lch) pos = lch :=
    getI_set_self l pos lch (by omega)
  have hvother : ∀ j, j ≠ pos → getI (l.set pos lch) j = getI l j :=
    fun j hj => getI_set_ne l pos j lch (Ne.symm hj)
  constructor
  · intro c hc hclen hcch hparch
    rw [List.length_set] at hclen
    by_cases hcpos : c = pos
    · subst hcpos
      have hc0 : 0 < c := hc
      have hane : (c - 1) / 2 ≠ c := by omega
      rw [hvpos, hvother _ hane]
      exact h2 hc0 ch (by omega) hchlt hpar
    · by_cases hparpos : (c - 1) / 2 = pos
      · rw [hparpos, hvpos, hvother c hcpos]
        have hcases : c = 2 * pos + 1 ∨ c = 2 * pos + 2 := by omega
        rcases hcases with hc1 | hc2
        · rw [hc1]
          exact hminl
        · rw [hc2]
          exact hminr (by omega)
      · rw [hvother _ hparpos, hvother c hcpos]
        exact h1 c hc hclen hcpos hparpos
  · intro hchpos c hc hclen hparc
    rw [List.length_set] at hclen
    have hcgt : ch < c := by omega
    have hcpos : c ≠ pos := by omega
    rw [hpar, hvpos, hvother c hcpos]
    have := h1 c hc hclen hcpos (by omega)
    rwa [hparc] at this

/-- The `_siftup` descent loop lands on a leaf, preserving the descent
invariant and the length. -/
theorem siftupLoop_inv (endpos : Nat) (pos : Nat) (l : List TrainingJob)
    (hlen : endpos = l.length) (hpos : pos < endpos) (hinv : DInv l pos) :
    DInv (siftupLoop endpos l pos).1 (siftupLoop endpos l pos).2 ∧
    ¬ 2 * (siftupLoop endpos l pos).2 + 1 < endpos ∧
    (siftupLoop endpos l pos).2 < endpos ∧
    (siftupLoop endpos l pos).1.length = l.length := by
  have H : ∀ n pos l, endpos - pos ≤ n → endpos = l.length → pos < endpos → DInv l pos →
      DInv (siftupLoop endpos l pos).1 (siftupLoop endpos l pos).2 ∧
      ¬ 2 * (siftupLoop endpos l pos).2 + 1 < endpos ∧
      (siftupLoop endpos l pos).2 < endpos ∧
      (siftupLoop endpos l pos).1.length = l.length := by
    intro n
    induction n with
    | zero =>
      intro pos l hfuel hlen hpos hinv
      rw [siftupLoop, if_neg (by omega)]
      exact ⟨hinv, by omega, hpos, rfl⟩
    | succ n ihn =>
      intro pos l hfuel hlen hpos hinv
      rw [siftupLoop]
      split
      · rename_i hc
        have hb := childIndex_spec l endpos pos hc
        have hstep := dInv_step l endpos pos hlen hc hinv
        have := ihn (childIndex l endpos pos) (l.set pos (getI l (childIndex l endpos pos)))
          (by omega) (by rw [List.length_set]; exact hlen) (by omega) hstep
        rw [List.length_set] at this
        exact this
      · rename_i hc
        exact ⟨hinv, hc, hpos, rfl⟩
  exact H endpos pos l (by omega) hlen hpos hinv

/-- At a leaf, writing any item into the hole turns the descent invariant
into the bubble-up invariant. -/
theorem leaf_almostInv (l : List TrainingJob) (pos : Nat) (x : TrainingJob)
    (hleaf : ¬ 2 * pos + 1 < l.length) (hinv : DInv l pos) :
    AlmostInv (l.set pos x) pos := by
  constructor
  · intro c hc hclen hcpos
    rw [List.length_set] at hclen
    have hparpos : (c - 1) / 2 ≠ pos := by omega
    rw [getI_set_ne l pos c x (Ne.symm hcpos), getI_set_ne l pos ((c - 1) / 2) x
      (Ne.symm hparpos)]
    exact hinv.1 c hc hclen hcpos hparpos
  · intro hpos c hc hclen hparc
    rw [List.length_set] at hclen
    omega

/-- `_siftup` from the root restores the heap invariant from the descent
invariant. -/
theorem siftup_isHeap (l : List TrainingJob) (hlen : 0 < l.length) (hinv : DInv l 0) :
    IsHeap (siftup l 0) := by
  unfold siftup siftdown
  obtain ⟨hinv', hleaf, hposlt, hlen'⟩ := siftupLoop_inv l.length 0 l rfl hlen hinv
  have hPA : (siftupLoop l.length l 0).2 <
      ((siftupLoop l.length l 0).1.set (siftupLoop l.length l 0).2 (getI l 0)).length := by
    rw [List.length_set, hlen']
    exact hposlt
  have hAP : getI ((siftupLoop l.length l 0).1.set (siftupLoop l.length l 0).2 (getI l 0))
      (siftupLoop l.length l 0).2 = getI l 0 :=
    getI_set_self _ _ _ (by rw [hlen']; exact hposlt)
  rw [hAP]
  apply siftdownLoop_heap (getI l 0) (siftupLoop l.length l 0).2 _ hPA
  rw [List.set_set]
  exact leaf_almostInv _ _ _ (by rwa [hlen']) hinv'

/-- In a heap, the root has minimal priority. -/
theorem isHeap_root_min (l : List TrainingJob) (h : IsHeap l) :
    ∀ j, j < l.length → (getI l 0).priority ≤ (getI l j).priority := by
  intro j
  induction j using Nat.strong_induction_on with
  | _ j ih =>
    intro hj
    by_cases hj0 : j = 0
    · subst hj0
      exact le_refl _
    · calc (getI l 0).priority ≤ (getI l ((j - 1) / 2)).priority :=
            ih ((j - 1) / 2) (by omega) (by omega)
        _ ≤ (getI l j).priority := h j (by omega) hj

/-- Every list member is a `getI` value at some in-bounds index. -/
theorem mem_getI (l : List TrainingJob) (y : TrainingJob) (hy : y ∈ l) :
    ∃ j, j < l.length ∧ getI l j = y := by
  obtain ⟨i, hi, hEq⟩ := List.getElem_of_mem hy
  refine ⟨i, hi, ?_⟩
  unfold getI
  rw [List.getD_eq_getElem _ _ hi]
  exact hEq

/-- The bubble-up loop introduces no new elements. -/
theorem siftdownLoop_subset (s : Nat) (ni : TrainingJob) :
    ∀ pos l, pos < l.length → ∀ y ∈ (siftdownLoop s ni l pos).1, y ∈ l := by
  intro pos
  induction pos using Nat.strong_induction_on with
  | _ pos ih =>
    intro l hlen y hy
    rw [siftdownLoop] at hy
    split at hy
    · split at hy
      · rename_i hs hcmp
        have := ih ((pos - 1) / 2) (by omega) (l.set pos (getI l ((pos - 1) / 2)))
          (by rw [List.length_set]; omega) y hy
        rcases List.mem_or_eq_of_mem_set this with h | h
        · exact h
        · rw [h]
          exact getI_mem l ((pos - 1) / 2) (by omega)
      · exact hy
    · exact hy

/-- `_siftdown` introduces no new elements. -/
theorem siftdown_subset (l : List TrainingJob) (s pos : Nat) (h : pos < l.length) :
    ∀ y ∈ siftdown l s pos, y ∈ l := by
  intro y hy
  unfold siftdown at hy
  rcases List.mem_or_eq_of_mem_set hy with h2 | h2
  · exact siftdownLoop_subset s (getI l pos) pos l h y h2
  · rw [h2]
    exact getI_mem l pos h

/-- The `_siftup` descent loop stays inside `endpos`. -/
theorem siftupLoop_pos_lt (endpos : Nat) :
    ∀ pos l, pos < endpos → (siftupLoop endpos l pos).2 < endpos := by
  have H : ∀ n pos l, endpos - pos ≤ n → pos < endpos →
      (siftupLoop endpos l pos).2 < endpos := by
    intro n
    induction n with
    | zero =>
      intro pos l hfuel hpos
      rw [siftupLoop, if_neg (by omega)]
      exact hpos
    | succ n ihn =>
      intro pos l hfuel hpos
      rw [siftupLoop]
      split
      · rename_i hc
        have hb := childIndex_spec l endpos pos hc
        exact ihn _ _ (by omega) (by omega)
      · exact hpos
  intro pos l hpos
  exact H endpos pos l (by omega) hpos

/-- The `_siftup` descent loop introduces no new elements. -/
theorem siftupLoop_subset (endpos : Nat) :
    ∀ pos l, endpos = l.length → ∀ y ∈ (siftupLoop endpos l pos).1, y ∈ l := by
  have H : ∀ n pos l, endpos - pos ≤ n → endpos = l.length →
      ∀ y ∈ (siftupLoop endpos l pos).1, y ∈ l := by
    intro n
    induction n with
    | zero =>
      intro pos l hfuel hlen y hy
      rw [siftupLoop, if_neg (by omega)] at hy
      exact hy
    | succ n ihn =>
      intro pos l hfuel hlen y hy
      rw [siftupLoop] at hy
      split at hy
      · rename_i hc
        have hb := childIndex_spec l endpos pos hc
        have := ihn (childIndex l endpos pos) (l.set pos (getI l (childIndex l endpos pos)))
          (by omega) (by rw [List.length_set]; exact hlen) y hy
        rcases List.mem_or_eq_of_mem_set this with h | h
        · exact h
        · rw [h]
          exact getI_mem l _ (by omega)
      · exact hy
  intro pos l hlen y hy
  exact H endpos pos l (by omega) hlen y hy

/-- `_siftup` introduces no new elements. -/
theorem siftup_subset (l : List TrainingJob) (pos : Nat) (h : pos < l.length) :
    ∀ y ∈ siftup l pos, y ∈ l := by
  intro y hy
  unfold siftup at hy
  have hplt : (siftupLoop l.length l pos).2 <
      ((siftupLoop l.length l pos).1.set (siftupLoop l.length l pos).2 (getI l pos)).length := by
    rw [List.length_set, siftupLoop_length]
    exact siftupLoop_pos_lt l.length pos l h
  have hmem := siftdown_subset _ pos (siftupLoop l.length l pos).2 hplt y hy
  rcases List.mem_or_eq_of_mem_set hmem with h2 | h2
  · exact siftupLoop_subset l.length pos l rfl y h2
  · rw [h2]
    exact getI_mem l pos h

/-- `getI` commutes with `dropLast` on in-bounds indices. -/
theorem getI_dropLast (l : List TrainingJob) (i : Nat) (h : i < l.length - 1) :
    getI l.dropLast i = getI l i := by
  unfold getI
  rw [List.getD_eq_getElem _ _ (by rw [List.length_dropLast]; omega),
    List.getD_eq_getElem _ _ (by omega), List.getElem_dropLast]

/-- `dropLast` members are members. -/
theorem mem_of_mem_dropLast (l : List TrainingJob) (y : TrainingJob)
    (hy : y ∈ l.dropLast) : y ∈ l := by
  obtain ⟨j, hj, hEq⟩ := mem_getI l.dropLast y hy
  rw [List.length_dropLast] at hj
  rw [← hEq, getI_dropLast l j hj]
  exact getI_mem l j (by omega)

/-- `heappop`'s replacement of the root in the truncated heap satisfies the
descent invariant. -/
theorem dropLast_set_dInv (l : List TrainingJob) (x : TrainingJob) (h : IsHeap l) :
    DInv (l.dropLast.set 0 x) 0 := by
  constructor
  · intro c hc hclen hc0 hpar0
    rw [List.length_set, List.length_dropLast] at hclen
    rw [getI_set_ne l.dropLast 0 c x (by omega), getI_set_ne l.dropLast 0 ((c - 1) / 2) x
      (by omega), getI_dropLast l c hclen, getI_dropLast l ((c - 1) / 2) (by omega)]
    exact h c hc (by omega)
  · intro h0
    exact absurd h0 (lt_irrefl 0)

/-- The last element of a heap list is a member. -/
theorem getLast?_mem (l : List TrainingJob) (x : TrainingJob)
    (h : l.getLast? = some x) : x ∈ l := by
  rcases List.mem_getLast?_eq_getLast (Option.mem_def.mpr h) with ⟨hne, hEq⟩
  rw [hEq]
  exact List.getLast_mem hne

/-- `heappop` on a nonempty list, unfolded past the `match`. -/
theorem heappop_eq_some (l : List TrainingJob) (lastelt : TrainingJob)
    (h : l.getLast? = some lastelt) :
    heappop l = if l.dropLast.isEmpty then some (lastelt, []) else
      some (getI l.dropLast 0, siftup (l.dropLast.set 0 lastelt) 0) := by
  unfold heappop
  rw [h]

/-- What `heappop` returns: the popped element is the root, the remaining
heap is one shorter and introduces no new elements. -/
theorem heappop_props (l : List TrainingJob) (x : TrainingJob) (rest : List TrainingJob)
    (hp : heappop l = some (x, rest)) :
    x = getI l 0 ∧ rest.length = l.length - 1 ∧ ∀ y ∈ rest, y ∈ l := by
  rcases hl : l.getLast? with _ | lastelt
  · rw [heappop] at hp
    rw [hl] at hp
    cases hp
  · rw [heappop_eq_some l lastelt hl] at hp
    split at hp
    · rename_i hemp
      have hdrop : l.dropLast = [] := List.isEmpty_iff.mp hemp
      have hne : l ≠ [] := by
        intro he
        rw [he] at hl
        cases hl
      have hlen1 : l.length = 1 := by
        have := List.length_dropLast l
        rw [hdrop] at this
        simp at this
        have : 0 < l.length := List.length_pos.mpr hne
        omega
      obtain ⟨a, ha⟩ := List.length_eq_one.mp hlen1
      subst ha
      have hla : lastelt = a := by
        simp [List.getLast?] at hl
        exact hl.symm
      rw [Option.some_inj, Prod.mk.injEq] at hp
      obtain ⟨hx, hrest⟩ := hp
      subst hla
      refine ⟨by rw [← hx]; rfl, by rw [← hrest]; rfl, ?_⟩
      intro y hy
      rw [← hrest] at hy
      cases hy
    · rename_i hemp
      have hdropne : l.dropLast ≠ [] := by
        intro he
        rw [he] at hemp
        simp at hemp
      have hlen2 : 2 ≤ l.length := by
        have h1 : 0 < l.dropLast.length := List.length_pos.mpr hdropne
        rw [List.length_dropLast] at h1
        omega
      rw [Option.some_inj, Prod.mk.injEq] at hp
      obtain ⟨hx, hrest⟩ := hp
      refine ⟨?_, ?_, ?_⟩
      · rw [← hx, getI_dropLast l 0 (by omega)]
      · rw [← hrest, siftup_length, List.length_set, List.length_dropLast]
      · intro y hy
        rw [← hrest] at hy
        have h0len : 0 < (l.dropLast.set 0 lastelt).length := by
          rw [List.length_set, List.length_dropLast]
          omega
        have := siftup_subset _ 0 h0len y hy
        rcases List.mem_or_eq_of_mem_set this with h2 | h2
        · exact mem_of_mem_dropLast l y h2
        · rw [h2]
          exact getLast?_mem l lastelt hl

/-- `heappop` preserves the heap invariant. -/
theorem heappop_isHeap (l : List TrainingJob) (h : IsHeap l) (x : TrainingJob)
    (rest : List TrainingJob) (hp : heappop l = some (x, rest)) : IsHeap rest := by
  rcases hl : l.getLast? with _ | lastelt
  · rw [heappop] at hp
    rw [hl] at hp
    cases hp
  · rw [heappop_eq_some l lastelt hl] at hp
    split at hp
    · rw [Option.some_inj, Prod.mk.injEq] at hp
      rw [← hp.2]
      intro c hc hclen
      simp at hclen
    · rename_i hemp
      have hdropne : l.dropLast ≠ [] := by
        intro he
        rw [he] at hemp
        simp at hemp
      rw [Option.some_inj, Prod.mk.injEq] at hp
      rw [← hp.2]
      apply siftup_isHeap
      · rw [List.length_set]
        exact List.length_pos.mpr hdropne
      · exact dropLast_set_dInv l lastelt h

/-- One step of `drainFuel` when the heap is empty. -/
theorem drainFuel_succ_none (fuel : Nat) (l : List TrainingJob)
    (h : heappop l = none) : drainFuel (fuel + 1) l = [] := by
  rw [drainFuel, h]

/-- One step of `drainFuel` when the heap pops. -/
theorem drainFuel_succ_some (fuel : Nat) (l : List TrainingJob) (x : TrainingJob)
    (rest : List TrainingJob) (h : heappop l = some (x, rest)) :
    drainFuel (fuel + 1) l = x :: drainFuel fuel rest := by
  rw [drainFuel, h]

/-- Draining introduces no new elements. -/
theorem drainFuel_subset : ∀ (fuel : Nat) (l : List TrainingJob) (y : TrainingJob),
    y ∈ drainFuel fuel l → y ∈ l := by
  intro fuel
  induction fuel with
  | zero =>
    intro l y hy
    cases hy
  | succ n ih =>
    intro l y hy
    rcases hpop : heappop l with _ | ⟨x, rest⟩
    · rw [drainFuel_succ_none n l hpop] at hy
      cases hy
    · rw [drainFuel_succ_some n l x rest hpop] at hy
      have hne : l ≠ [] := by
        intro he
        rw [he] at hpop
        cases hpop
      obtain ⟨hx, hrl, hsub⟩ := heappop_props l x rest hpop
      rcases List.mem_cons.mp hy with h2 | h2
      · rw [h2, hx]
        exact getI_mem l 0 (List.length_pos.mpr hne)
      · exact hsub y (ih rest y h2)

/-- Draining a heap yields the elements in nondecreasing priority order. -/
theorem drain_pairwise (l : List TrainingJob) (h : IsHeap l) :
    List.Pairwise (fun a b => a.priority ≤ b.priority) (drain l) := by
  have H : ∀ n l, l.length ≤ n → IsHeap l →
      List.Pairwise (fun a b => a.priority ≤ b.priority) (drain l) := by
    intro n
    induction n with
    | zero =>
      intro l hl _
      have : l = [] := List.eq_nil_of_length_eq_zero (by omega)
      subst this
      exact List.Pairwise.nil
    | succ n ihn =>
      intro l hl hheap
      unfold drain
      rcases hlen0 : l.length with _ | m
      · exact List.Pairwise.nil
      · rcases hpop : heappop l with _ | ⟨x, rest⟩
        · rw [drainFuel_succ_none m l hpop]
          exact List.Pairwise.nil
        · rw [drainFuel_succ_some m l x rest hpop]
          obtain ⟨hx, hrl, hsub⟩ := heappop_props l x rest hpop
          have hrheap := heappop_isHeap l hheap x rest hpop
          have hrm : rest.length = m := by omega
          rw [List.pairwise_cons]
          constructor
          · intro y hy
            have hyl : y ∈ l := hsub y (drainFuel_subset m rest y hy)
            obtain ⟨j, hj, hEq⟩ := mem_getI l y hyl
            rw [hx, ← hEq]
            exact isHeap_root_min l hheap j hj
          · have hdm : drainFuel m rest = drain rest := by
              unfold drain
              rw [hrm]
            rw [hdm]
            exact ihn rest (by omega) hrheap
  exact H l.length l (le_refl _) h

/-- Pushing any batch of jobs onto an empty queue yields a heap. -/
theorem foldl_heappush_isHeap : ∀ (jobs : List TrainingJob) (l : List TrainingJob),
    IsHeap l → IsHeap (jobs.foldl heappush l) := by
  intro jobs
  induction jobs with
  | nil =>
    intro l h
    exact h
  | cons j js ih =>
    intro l h
    rw [List.foldl_cons]
    exact ih _ (heappush_isHeap l j h)

/-- C8 amended: jobs submitted while the worker is idle are dequeued in
ascending order of priority value (lower number first); no tie-breaking by
submission order is guaranteed for equal priorities. -/
theorem C8_drain_sorted_by_priority (jobs : List TrainingJob) :
    List.Pairwise (fun a b => a.priority ≤ b.priority)
      (drain (jobs.foldl heappush [])) := by
  apply drain_pairwise
  apply foldl_heappush_isHeap
  intro c hc hclen
  simp at hclen

/-- C8 counterexample: four jobs of equal priority 5, submitted with tags
0, 1, 2, 3 (submission order), are dequeued in the order 0, 2, 1, 3 — the
worker does not receive equal-priority jobs in submission order. -/
theorem C8_fifo_tie_break_violated :
    ((drain (([⟨5, 0, none, none⟩, ⟨5, 1, none, none⟩, ⟨5, 2, none, none⟩,
        ⟨5, 3, none, none⟩] : List TrainingJob).foldl heappush [])).map TrainingJob.tag =
      [0, 2, 1, 3]) ∧
    ([0, 2, 1, 3] : List Nat) ≠ [0, 1, 2, 3] := by
  constructor
  · simp [drain, drainFuel, heappop, heappush, siftup, siftupLoop, siftdownLoop,
      siftdown, childIndex, getI]
  · decide

end ApexFlow